import Mathlib

/-!
Shallow embedding of the LPC / formant-extraction pipeline of
`acousticsim/representations/formants.py`, together with theorems
settling the frozen claims about it.

Modelling conventions:
* numpy float arrays become `List ℝ` (exact real arithmetic, as the claims
  are stated "under exact arithmetic"); complex arrays become `List ℂ`.
* `numpy.fft.fft` / `ifft` are embedded as the exact discrete Fourier
  transform sums they compute.
* `np.roots` is an iterative floating-point eigenvalue computation with no
  exact semantics; the formant extractor is therefore parametrised by the
  root-finding function (`findRoots`), and every theorem quantifies over it.
* Python exceptions become `Except String`.
* Python dicts (`self._rep`) become association lists in insertion order;
  the extractor inserts strictly increasing keys, and dict-specific
  theorems carry a `Nodup` hypothesis on the keys.
* The helpers `preproc` / `resample` (excluded collaborators per the spec)
  are not modelled: `process` takes the resampled, pre-emphasised signal
  as its input.
-/

open Finset in
/-- Modelled from the spec: `nextpow2` lives in
`acousticsim/representations/helper.py`, which is not part of the given
sources.  Per spec §4.2 the FFT length is "the next power-of-two length
≥ 2·maxlag−1", so `nextpow2 m` is the least `p` with `m ≤ 2 ^ p`. -/
def nextpow2 (m : ℤ) : ℕ :=
  if m ≤ 1 then 0 else Nat.clog 2 m.toNat

/-- `numpy.fft.fft(x, n)` first adjusts `x` to length `n`: truncating when
`x` is longer, zero-padding when it is shorter. -/
def padTrunc (x : List ℂ) (N : ℕ) : List ℂ :=
  x.take N ++ List.replicate (N - x.length) 0

/-- The root of unity `exp(2πi·m/N)` used by the DFT. -/
noncomputable def expw (N : ℕ) (m : ℤ) : ℂ :=
  Complex.exp (2 * Real.pi * Complex.I * m / N)

/-- Exact semantics of `numpy.fft.fft(x, n=N)`:
`X_k = Σ_t x_t · exp(−2πi·k·t/N)`. -/
noncomputable def npfft (x : List ℂ) (N : ℕ) : List ℂ :=
  (List.range N).map (fun k =>
    ∑ t ∈ Finset.range N, (padTrunc x N).getD t 0 * expw N (-((k * t : ℕ) : ℤ)))

/-- Exact semantics of `numpy.fft.ifft(y)` with `N = len(y)`:
`x_t = (1/N) Σ_k y_k · exp(2πi·k·t/N)`. -/
noncomputable def npifft (y : List ℂ) (N : ℕ) : List ℂ :=
  (List.range N).map (fun t =>
    (∑ k ∈ Finset.range N, y.getD k 0 * expw N ((k * t : ℕ) : ℤ)) / N)

/-- `_acorr_last_axis(x, nfft, maxlag)` from the source (1-D case):
`np.real(ifft(np.abs(fft(x, n=nfft) ** 2)))[:maxlag+1] / x.shape[-1]`.
Note `|F²| = |F|²`, embedded via `Complex.normSq`. -/
noncomputable def acorr_last_axis (x : List ℝ) (nfft maxlag : ℕ) : List ℝ :=
  let F := npfft (x.map Complex.ofReal) nfft
  let p := F.map (fun z => ((Complex.normSq z : ℝ) : ℂ))
  let a := (npifft p nfft).map Complex.re
  (a.take (maxlag + 1)).map (fun v => v / x.length)

/-- `acorr_lpc(x)` from the source (1-D case; the input is a real array by
construction, so the `isrealobj` guard is vacuous): sets
`maxlag = len(x)`, `nfft = 2 ** nextpow2(2*maxlag - 1)` and delegates. -/
noncomputable def acorr_lpc (x : List ℝ) : List ℝ :=
  let maxlag := x.length
  let nfft := 2 ^ nextpow2 (2 * (maxlag : ℤ) - 1)
  acorr_last_axis x nfft maxlag

/-- Direct time-domain biased autocorrelation, as the spec words it
(§4.2, §8): lag `ℓ` is `(1/n) Σ_{t=ℓ}^{n−1} x_t·x_{t−ℓ}`, for lags
`0..maxlag`. -/
noncomputable def directBiasedAutocorr (x : List ℝ) (maxlag : ℕ) : List ℝ :=
  (List.range (maxlag + 1)).map (fun l =>
    (∑ t ∈ Finset.Ico l x.length, x.getD t 0 * x.getD (t - l) 0) / x.length)

section Levinson

variable {α : Type} [Field α] [StarRing α] [DecidableEq α]

/-- One iteration of the `for i in range(1, order+1)` loop of
`levinson_1d`.  The state is `(a, e, k)`; at entry to step `i` the list
`a` holds the coefficients `a[0..i-1]`.  The source sets `a[i] = k[i-1]`,
copies the array into the temporary `t`, and then performs
`a[j] += k[i-1] * conj(t[i-j])` for `j = 1..i-1`, so every read of the
update goes through the pre-update snapshot `t`. -/
def levinsonStep (r : List α) (i : ℕ) (st : List α × α × List α) :
    List α × α × List α :=
  let a := st.1
  let e := st.2.1
  let ks := st.2.2
  let acc := r.getD i 0 + ∑ j ∈ Finset.Ico 1 i, a.getD j 0 * r.getD (i - j) 0
  let ki := -acc / e
  let t := a ++ [ki]
  let a' := t.mapIdx (fun j v =>
    if 1 ≤ j ∧ j < i then v + ki * star (t.getD (i - j) 0) else v)
  (a', e * (1 - ki * star ki), ks ++ [ki])

/-- The loop of `levinson_1d` run for `i = 1..order`, starting from
`a = [1]`, `e = r[0]`, `k = []`. -/
def levinsonLoop (r : List α) (order : ℕ) : List α × α × List α :=
  (List.range' 1 order).foldl (fun st i => levinsonStep r i st)
    ([1], r.getD 0 0, [])

/-- `levinson_1d(r, order)` from the source: input validation followed by
the Levinson-Durbin recursion.  `np.isreal(r[0])` is embedded as
`star r[0] = r[0]`, and `np.isfinite(1/r[0])` as `r[0] ≠ 0` (exact
arithmetic has no infinities). -/
def levinson_1d (r : List α) (order : ℕ) : Except String (List α × α × List α) :=
  if r.length < 1 then .error "Cannot operate on empty array !"
  else if r.length ≤ order then .error "Order should be <= size-1"
  else if ¬ star (r.getD 0 0) = r.getD 0 0 then .error "First item of input must be real."
  else if r.getD 0 0 = 0 then .error "First item should be != 0"
  else .ok (levinsonLoop r order)

end Levinson

/-- `lpc(signal, order)` from the source (axis = -1, 1-D case): validates
`order ≤ len(signal)`, then solves the Toeplitz system built from the
FFT-based autocorrelation. -/
noncomputable def lpc (signal : List ℝ) (order : ℕ) :
    Except String (List ℝ × ℝ × List ℝ) :=
  if signal.length < order then .error "Input signal must have length >= order"
  else levinson_1d (acorr_lpc signal) order

/-- `scipy.signal.gaussian(M, std)`: `w_n = exp(−(n−(M−1)/2)² / (2·std²))`. -/
noncomputable def gaussianWin (M : ℕ) (std : ℝ) : List ℝ :=
  (List.range M).map (fun (n : ℕ) =>
    Real.exp (-(((n : ℝ) - ((M : ℝ) - 1) / 2) ^ 2) / (2 * std ^ 2)))

/-- `numpy.hanning(M)` for `M ≥ 2`: `w_n = 1/2 − 1/2·cos(2πn/(M−1))`
(every call in the source has `M = nperseg + 2 ≥ 2`). -/
noncomputable def hanningWin (M : ℕ) : List ℝ :=
  (List.range M).map (fun (n : ℕ) =>
    1 / 2 - 1 / 2 * Real.cos (2 * Real.pi * (n : ℝ) / ((M : ℝ) - 1)))

/-- The analysis window built by `LpcFormants.process`: a length-`nperseg+2`
gaussian or hanning window with its two end points sliced off
(`[1:nperseg+1]`). -/
noncomputable def processWindow (shape : String) (nperseg : ℕ) : List ℝ :=
  if shape = "gaussian" then
    ((gaussianWin (nperseg + 2) (0.45 * ((nperseg : ℝ) - 1) / 2)).drop 1).take nperseg
  else
    ((hanningWin (nperseg + 2)).drop 1).take nperseg

/-- Elementwise multiplication of two 1-D numpy arrays: defined when the
shapes agree, broadcast when one operand has length 1, and a `ValueError`
otherwise. -/
noncomputable def numpyMul (xs ys : List ℝ) : Except String (List ℝ) :=
  if xs.length = ys.length then .ok (List.zipWith (fun a b => a * b) xs ys)
  else if xs.length = 1 then .ok (ys.map (fun y => xs.getD 0 0 * y))
  else if ys.length = 1 then .ok (xs.map (fun x => x * ys.getD 0 0))
  else .error "operands could not be broadcast together"

/-- `np.arange(start, stop, step)` over integers with `start, step : ℕ`
(as in the source, where `start = nperseg/2 ≥ 0`); the element count is
`⌈(stop − start)/step⌉` clamped at 0. -/
def arangeNat (start : ℕ) (stop : ℤ) (step : ℕ) : List ℕ :=
  if stop ≤ (start : ℤ) then []
  else List.range' start (((stop - start).toNat + step - 1) / step) step

/-- `Except.bind` on a success, reduced. -/
lemma exceptBind_ok {γ δ : Type} (a : γ) (f : γ → Except String δ) :
    Except.bind (.ok a) f = f a := rfl

/-- `Except.bind` on a failure, reduced. -/
lemma exceptBind_error {γ δ : Type} (e : String) (f : γ → Except String δ) :
    Except.bind (.error e) f = (.error e : Except String δ) := rfl

/-- Lines 258–264 of the source: keep the roots with non-negative
imaginary part, convert each to `(frequency, bandwidth)` with
`frequency = atan2(Im, Re)·sr/(2π)` (`Complex.arg` is exactly
`atan2(Im, Re)`) and `bandwidth = −1/2·(sr/(2π))·ln|root|`, and sort by
frequency (argsort followed by fancy-indexing both arrays = sorting the
pairs by first component). -/
noncomputable def rootCandidates (sr : ℝ) (rts : List ℂ) : List (ℝ × ℝ) :=
  (((rts.filter (fun r => 0 ≤ r.im)).map (fun r =>
      (r.arg * (sr / (2 * Real.pi)),
       -1 / 2 * (sr / (2 * Real.pi)) * Real.log (Complex.abs r)))).mergeSort
    (fun p q => decide (p.1 ≤ q.1)))

/-- The root-to-candidate conversion as the claim words it: identical to
`rootCandidates` except that the bandwidth is `−(sr/(2π))·ln|root|`,
without the source's extra factor of `1/2`. -/
noncomputable def rootCandidatesClaim (sr : ℝ) (rts : List ℂ) : List (ℝ × ℝ) :=
  (((rts.filter (fun r => 0 ≤ r.im)).map (fun r =>
      (r.arg * (sr / (2 * Real.pi)),
       -(sr / (2 * Real.pi)) * Real.log (Complex.abs r)))).mergeSort
    (fun p q => decide (p.1 ≤ q.1)))

/-- Lines 265–274 of the source: drop candidates with frequency below
50 Hz or above `max_freq − 50` Hz, then pad with `(None, None)` up to
`num_formants` entries.  `missing = num_formants - len(formants)` is a
Python int: when it is negative, `[(None,None)] * missing` is the empty
list, so nothing is truncated (ℕ-subtraction models this exactly). -/
noncomputable def filterPad (maxFreq : ℝ) (numFormants : ℕ)
    (cands : List (ℝ × ℝ)) : List (Option ℝ × Option ℝ) :=
  let formants := (cands.filter
      (fun p => decide (¬ p.1 < 50) && decide (¬ maxFreq - 50 < p.1))).map
    (fun p => ((some p.1, some p.2) : Option ℝ × Option ℝ))
  formants ++ List.replicate (numFormants - formants.length)
    ((none : Option ℝ), (none : Option ℝ))

/-- Configuration state shared by `Formants` / `LpcFormants`
(`_freq_lims[1]`, `_num_formants`, `_win_len`, `_time_step`,
`_window_shape`). -/
structure FormantsConfig where
  max_freq : ℝ
  num_formants : ℕ
  win_len : ℝ
  time_step : ℝ
  window_shape : String

/-- `Formants.__init__`: stores the configuration, doubling `_win_len`
when the window shape is `'gaussian'`. -/
def Formants_init (max_freq : ℝ) (num_formants : ℕ) (win_len time_step : ℝ)
    (window_shape : String) : FormantsConfig :=
  { max_freq := max_freq
    num_formants := num_formants
    win_len := if window_shape = "gaussian" then win_len * 2 else win_len
    time_step := time_step
    window_shape := window_shape }

/-- `LpcFormants.__init__`: the source forwards the literal
`window_shape = 'gaussian'` (and `attributes = None`) to
`Formants.__init__` instead of the caller's argument. -/
def LpcFormants_init (max_freq : ℝ) (num_formants : ℕ)
    (win_len time_step : ℝ) (window_shape : String) : FormantsConfig :=
  Formants_init max_freq num_formants win_len time_step "gaussian"

/-- A formant frame: the per-time list of `(frequency, bandwidth)` pairs,
with `none` standing for the `None` missing sentinel. -/
abbrev FormantFrame := List (Option ℝ × Option ℝ)

/-- The body of the `for i in range(num_frames)` loop of
`LpcFormants.process` for frame centre `i`: window the frame, run LPC of
order `2·num_formants`, find the polynomial roots (via the supplied root
finder), convert, filter, pad, and key the frame by `i / new_sr`. -/
noncomputable def processFrame (cfg : FormantsConfig)
    (findRoots : List ℝ → List ℂ) (proc : List ℝ) (window : List ℝ)
    (new_sr : ℝ) (h : ℕ) (i : ℕ) : Except String (ℝ × FormantFrame) :=
  Except.bind (numpyMul ((proc.drop (i - h)).take (2 * h)) window) (fun Xw =>
    Except.bind (lpc Xw (2 * cfg.num_formants)) (fun Aek =>
      .ok ((i : ℝ) / new_sr,
        filterPad cfg.max_freq cfg.num_formants
          (rootCandidates new_sr (findRoots Aek.1)))))

/-- `LpcFormants.process`, from the computation of `nperseg` onward.
`preproc` and `resample` are excluded collaborators (spec §1, §6), so the
resampled pre-emphasised signal `proc` is an input.  `int()` of a
non-negative float is `Int.floor ∘ Int.toNat`.  `np.arange` raises when
the step is zero, embedded as the explicit error branch. -/
noncomputable def process (cfg : FormantsConfig)
    (findRoots : List ℝ → List ℂ) (proc : List ℝ) :
    Except String (List (ℝ × FormantFrame)) :=
  let new_sr : ℝ := 2 * cfg.max_freq
  let nperseg : ℕ := (Int.floor (cfg.win_len * new_sr)).toNat
  let nperstep : ℕ := (Int.floor (cfg.time_step * new_sr)).toNat
  let window := processWindow cfg.window_shape nperseg
  let h := nperseg / 2
  if nperstep = 0 then .error "arange: step must be nonzero"
  else
    (arangeNat h ((proc.length : ℤ) - h + 1) nperstep).mapM
      (processFrame cfg findRoots proc window new_sr h)

/-- `Formants.to_array(value)`: one row per recorded time, rows in
ascending key order.  `next(iter(...))` on an empty dict raises
`StopIteration`; a row whose length differs from the first frame's length
(and is not 1, numpy broadcasting) raises at the `output[i,:] = ...`
assignment; an unrecognised `value` leaves the zero-initialised row.
`none` entries stand for the NaN that `None` becomes in a float array. -/
noncomputable def to_array (rep : List (ℝ × FormantFrame)) (value : String) :
    Except String (List (List (Option ℝ))) :=
  match rep with
  | [] => .error "StopIteration"
  | (_, ex) :: _ =>
    let frame_len := ex.length
    let times := (rep.map Prod.fst).mergeSort (fun a b => decide (a ≤ b))
    times.mapM (fun t => do
      let frame := ((rep.find? (fun p => p.1 = t)).map Prod.snd).getD []
      let row : List (Option ℝ) :=
        if value = "formant" then frame.map Prod.fst
        else if value = "bandwidth" then frame.map Prod.snd
        else List.replicate frame_len (some 0)
      if row.length = frame_len then pure row
      else if row.length = 1 then pure (List.replicate frame_len (row.getD 0 none))
      else .error "could not broadcast input array")

/-! ### DFT facts: orthogonality of the roots of unity -/

lemma expw_add (N : ℕ) (a b : ℤ) : expw N (a + b) = expw N a * expw N b := by
  rw [expw, expw, expw, ← Complex.exp_add]
  congr 1
  push_cast
  ring

lemma expw_pow (N : ℕ) (m : ℤ) (k : ℕ) : expw N (m * k) = expw N m ^ k := by
  rw [expw, expw, ← Complex.exp_nat_mul]
  congr 1
  push_cast
  ring

lemma expw_star (N : ℕ) (m : ℤ) : (starRingEnd ℂ) (expw N m) = expw N (-m) := by
  rw [expw, expw, ← Complex.exp_conj]
  congr 1
  simp only [map_div₀, map_mul, map_intCast, map_natCast, map_ofNat,
    Complex.conj_I, Complex.conj_ofReal]
  push_cast
  ring

lemma expw_eq_one_iff {N : ℕ} (hN : 0 < N) (m : ℤ) :
    expw N m = 1 ↔ (N : ℤ) ∣ m := by
  have hNC : ((N : ℕ) : ℂ) ≠ 0 := Nat.cast_ne_zero.mpr hN.ne'
  have hπI : (2 : ℂ) * Real.pi * Complex.I ≠ 0 :=
    mul_ne_zero (mul_ne_zero two_ne_zero
      (Complex.ofReal_ne_zero.mpr Real.pi_ne_zero)) Complex.I_ne_zero
  constructor
  · intro h
    rw [expw, Complex.exp_eq_one_iff] at h
    obtain ⟨c, hc⟩ := h
    refine ⟨c, ?_⟩
    have h2 : (2 : ℂ) * Real.pi * Complex.I * m = 2 * Real.pi * Complex.I * (c * N) := by
      field_simp at hc
      linear_combination hc
    have h3 : (m : ℂ) = (c : ℂ) * N := mul_left_cancel₀ hπI h2
    have h4 : (m : ℂ) = (((N : ℤ) * c : ℤ) : ℂ) := by
      push_cast
      linear_combination h3
    exact_mod_cast h4
  · rintro ⟨c, rfl⟩
    rw [expw]
    have h5 : (2 : ℂ) * Real.pi * Complex.I * (((N : ℤ) * c : ℤ) : ℂ) / N
        = c * (2 * Real.pi * Complex.I) := by
      push_cast
      field_simp
      ring
    rw [h5, Complex.exp_int_mul_two_pi_mul_I]

lemma sum_expw {N : ℕ} (hN : 0 < N) (m : ℤ) :
    ∑ k ∈ Finset.range N, expw N (m * k) =
      if (N : ℤ) ∣ m then (N : ℂ) else 0 := by
  by_cases h : (N : ℤ) ∣ m
  · simp only [h, if_true]
    have h1 : ∀ k ∈ Finset.range N, expw N (m * k) = 1 := by
      intro k _
      rw [expw_pow, (expw_eq_one_iff hN m).2 h, one_pow]
    rw [Finset.sum_congr rfl h1]
    simp
  · simp only [h, if_false]
    have h1 : expw N m ≠ 1 := fun hc => h ((expw_eq_one_iff hN m).1 hc)
    have h2 : ∀ k ∈ Finset.range N, expw N (m * k) = expw N m ^ k := by
      intro k _
      exact expw_pow N m k
    rw [Finset.sum_congr rfl h2, geom_sum_eq h1]
    have h3 : expw N m ^ N = 1 := by
      rw [← expw_pow, (expw_eq_one_iff hN (m * N)).2 ⟨m, by ring⟩]
    rw [h3]
    simp

/-! ### List access helpers -/

lemma getD_map_range {β : Type} (f : ℕ → β) (d : β) {k N : ℕ} (hk : k < N) :
    ((List.range N).map f).getD k d = f k := by
  rw [List.getD_eq_getElem?_getD, List.getElem?_map, List.getElem?_range hk]
  rfl

lemma getD_oob {β : Type} (l : List β) (d : β) {k : ℕ} (hk : l.length ≤ k) :
    l.getD k d = d := by
  rw [List.getD_eq_getElem?_getD, List.getElem?_eq_none hk]
  rfl

lemma padTrunc_map_getD (x : List ℝ) (N : ℕ) (hn : x.length ≤ N) (t : ℕ) :
    (padTrunc (x.map Complex.ofReal) N).getD t 0 = ((x.getD t 0 : ℝ) : ℂ) := by
  have hlen : (x.map Complex.ofReal).length = x.length := List.length_map x _
  rw [padTrunc, List.getD_eq_getElem?_getD, List.getD_eq_getElem?_getD]
  by_cases ht : t < x.length
  · rw [List.getElem?_append_left (by rw [List.length_take, hlen]; omega)]
    rw [List.getElem?_take, if_pos (lt_of_lt_of_le ht hn), List.getElem?_map,
      List.getElem?_eq_getElem ht]
    rfl
  · rw [@List.getElem?_eq_none _ x t (by omega)]
    by_cases htN : t < N
    · rw [List.getElem?_append_right (by rw [List.length_take, hlen]; omega)]
      rw [List.getElem?_replicate, List.length_take, hlen]
      rw [if_pos (by omega)]
      rfl
    · rw [List.getElem?_eq_none]
      · rfl
      · rw [List.length_append, List.length_take, List.length_replicate, hlen]
        omega

/-! ### The FFT-based autocorrelation equals the direct one -/

lemma npfft_real_getD (x : List ℝ) {N k : ℕ} (hn : x.length ≤ N) (hk : k < N) :
    (npfft (x.map Complex.ofReal) N).getD k 0
      = ∑ t ∈ Finset.range N, ((x.getD t 0 : ℝ) : ℂ) * expw N (-((k * t : ℕ) : ℤ)) := by
  rw [npfft, getD_map_range _ _ hk]
  exact Finset.sum_congr rfl (fun t _ => by rw [padTrunc_map_getD x N hn])

lemma npfft_real_conj (x : List ℝ) {N k : ℕ} (hn : x.length ≤ N) (hk : k < N) :
    (starRingEnd ℂ) ((npfft (x.map Complex.ofReal) N).getD k 0)
      = ∑ s ∈ Finset.range N, ((x.getD s 0 : ℝ) : ℂ) * expw N (((k * s : ℕ) : ℤ)) := by
  rw [npfft_real_getD x hn hk, map_sum]
  refine Finset.sum_congr rfl fun s _ => ?_
  rw [map_mul, Complex.conj_ofReal, expw_star, neg_neg]

/-- For `s < N` the only residue hit by the circular shift `t − ℓ` is
`(t + N − ℓ) % N`. -/
lemma shift_residue {N ℓ t : ℕ} (hℓ : ℓ < N) (s : ℕ) (hs : s < N) :
    ((N : ℤ) ∣ ((s : ℤ) + ℓ - t) ↔ s = (t + N - ℓ) % N) := by
  have hN0 : 0 < N := lt_of_le_of_lt (Nat.zero_le ℓ) hℓ
  have hN0' : (0 : ℤ) < N := by exact_mod_cast hN0
  have hmod : (((t + N - ℓ) % N : ℕ) : ℤ) = ((t : ℤ) + N - ℓ) % N := by
    rw [Int.natCast_mod]
    congr 1
    omega
  have hq : (((t + N - ℓ) % N : ℕ) : ℤ)
      = ((t : ℤ) + N - ℓ) - N * (((t : ℤ) + N - ℓ) / N) := by
    rw [hmod, Int.emod_def]
  have hs₀lt : (t + N - ℓ) % N < N := Nat.mod_lt _ hN0
  constructor
  · rintro ⟨c, hc⟩
    have hdiff : (s : ℤ) - (((t + N - ℓ) % N : ℕ) : ℤ)
        = N * (c + ((t : ℤ) + N - ℓ) / N - 1) := by
      rw [hq]
      linear_combination hc
    have habs : |(s : ℤ) - (((t + N - ℓ) % N : ℕ) : ℤ)| < N := by
      rw [abs_lt]
      constructor <;> [skip; skip] <;>
        · have h1 : (s : ℤ) < N := by exact_mod_cast hs
          have h2 : ((((t + N - ℓ) % N : ℕ)) : ℤ) < N := by exact_mod_cast hs₀lt
          have h3 : (0 : ℤ) ≤ (s : ℤ) := Int.natCast_nonneg s
          have h4 : (0 : ℤ) ≤ ((((t + N - ℓ) % N : ℕ)) : ℤ) := Int.natCast_nonneg _
          linarith
    have hzero : (s : ℤ) - (((t + N - ℓ) % N : ℕ) : ℤ) = 0 :=
      Int.eq_zero_of_abs_lt_dvd ⟨_, hdiff⟩ habs
    have : (s : ℤ) = (((t + N - ℓ) % N : ℕ) : ℤ) := by linarith
    exact_mod_cast this
  · rintro rfl
    refine ⟨1 - ((t : ℤ) + N - ℓ) / N, ?_⟩
    rw [hq]
    ring

/-- The `ℓ`-th entry of `ifft(|fft(x, N)|²)` is the plain (real) linear
autocorrelation of `x` at lag `ℓ`, provided `N` leaves room for the
zero-padding: `len(x) + ℓ ≤ N`. -/
lemma ifft_powerspec_getD (x : List ℝ) {N ℓ : ℕ}
    (hNl : x.length + ℓ ≤ N) (hℓ : ℓ < N) :
    (npifft ((npfft (x.map Complex.ofReal) N).map
        (fun z => ((Complex.normSq z : ℝ) : ℂ))) N).getD ℓ 0
      = ((∑ t ∈ Finset.Ico ℓ x.length, x.getD t 0 * x.getD (t - ℓ) 0 : ℝ) : ℂ) := by
  have hn : x.length ≤ N := by omega
  have hN0 : 0 < N := lt_of_le_of_lt (Nat.zero_le ℓ) hℓ
  have hNC : ((N : ℕ) : ℂ) ≠ 0 := Nat.cast_ne_zero.mpr hN0.ne'
  have hFlen : (npfft (x.map Complex.ofReal) N).length = N := by
    rw [npfft, List.length_map, List.length_range]
  -- the power-spectrum list entry is `F k * conj (F k)`
  have hp : ∀ k, k < N →
      ((npfft (x.map Complex.ofReal) N).map
          (fun z => ((Complex.normSq z : ℝ) : ℂ))).getD k 0
        = (npfft (x.map Complex.ofReal) N).getD k 0 *
            (starRingEnd ℂ) ((npfft (x.map Complex.ofReal) N).getD k 0) := by
    intro k hk
    have hk' : k < (npfft (x.map Complex.ofReal) N).length := by rw [hFlen]; exact hk
    rw [List.getD_eq_getElem?_getD, List.getElem?_map, List.getElem?_eq_getElem hk']
    rw [List.getD_eq_getElem?_getD, List.getElem?_eq_getElem hk']
    simp only [Option.map_some', Option.getD_some]
    rw [Complex.mul_conj]
  rw [npifft, getD_map_range _ _ hℓ]
  have hterm : ∀ k ∈ Finset.range N,
      ((npfft (x.map Complex.ofReal) N).map
          (fun z => ((Complex.normSq z : ℝ) : ℂ))).getD k 0 * expw N ((k * ℓ : ℕ) : ℤ)
        = ∑ t ∈ Finset.range N, ∑ s ∈ Finset.range N,
            ((x.getD t 0 : ℝ) : ℂ) * ((x.getD s 0 : ℝ) : ℂ) *
              expw N (((s : ℤ) + ℓ - t) * k) := by
    intro k hk
    rw [Finset.mem_range] at hk
    rw [hp k hk, npfft_real_conj x hn hk, npfft_real_getD x hn hk,
      Finset.sum_mul_sum, Finset.sum_mul]
    refine Finset.sum_congr rfl fun t _ => ?_
    rw [Finset.sum_mul]
    refine Finset.sum_congr rfl fun s _ => ?_
    rw [mul_mul_mul_comm, mul_assoc, ← expw_add, ← expw_add]
    congr 2
    push_cast
    ring
  rw [Finset.sum_congr rfl hterm]
  rw [Finset.sum_comm]
  have hswap : ∀ t ∈ Finset.range N,
      (∑ k ∈ Finset.range N, ∑ s ∈ Finset.range N,
          ((x.getD t 0 : ℝ) : ℂ) * ((x.getD s 0 : ℝ) : ℂ) *
            expw N (((s : ℤ) + ℓ - t) * k))
        = ((x.getD t 0 : ℝ) : ℂ) *
            ((x.getD ((t + N - ℓ) % N) 0 : ℝ) : ℂ) * N := by
    intro t _
    rw [Finset.sum_comm]
    have hinner : ∀ s ∈ Finset.range N,
        (∑ k ∈ Finset.range N,
            ((x.getD t 0 : ℝ) : ℂ) * ((x.getD s 0 : ℝ) : ℂ) *
              expw N (((s : ℤ) + ℓ - t) * k))
          = if s = (t + N - ℓ) % N then
              ((x.getD t 0 : ℝ) : ℂ) * ((x.getD s 0 : ℝ) : ℂ) * N else 0 := by
      intro s hs
      rw [Finset.mem_range] at hs
      rw [← Finset.mul_sum, sum_expw hN0]
      by_cases hcase : s = (t + N - ℓ) % N
      · rw [if_pos ((shift_residue hℓ s hs).mpr hcase), if_pos hcase]
      · rw [if_neg (fun hdvd => hcase ((shift_residue hℓ s hs).mp hdvd)),
          if_neg hcase, mul_zero]
    rw [Finset.sum_congr rfl hinner, Finset.sum_ite_eq']
    rw [if_pos (Finset.mem_range.mpr (Nat.mod_lt _ hN0))]
  rw [Finset.sum_congr rfl hswap]
  -- kill the `/N`
  rw [Finset.sum_div]
  have hdiv : ∀ t ∈ Finset.range N,
      ((x.getD t 0 : ℝ) : ℂ) * ((x.getD ((t + N - ℓ) % N) 0 : ℝ) : ℂ) * N / N
        = ((x.getD t 0 : ℝ) : ℂ) * ((x.getD ((t + N - ℓ) % N) 0 : ℝ) : ℂ) := by
    intro t _
    field_simp
  rw [Finset.sum_congr rfl hdiv]
  -- restrict the sum to `Ico ℓ n`
  have hsub : Finset.Ico ℓ x.length ⊆ Finset.range N := by
    intro t ht
    rw [Finset.mem_Ico] at ht
    exact Finset.mem_range.mpr (by omega)
  rw [← Finset.sum_subset hsub ?vanish]
  case vanish =>
    intro t ht htn
    rw [Finset.mem_range] at ht
    rw [Finset.mem_Ico] at htn
    by_cases htx : t < x.length
    · have htl : t < ℓ := by omega
      have hbig : x.length ≤ (t + N - ℓ) % N := by
        have h1 : t + N - ℓ < N := by omega
        rw [Nat.mod_eq_of_lt h1]
        omega
      rw [getD_oob x 0 hbig, Complex.ofReal_zero, mul_zero]
    · rw [getD_oob x 0 (by omega), Complex.ofReal_zero, zero_mul]
  rw [Complex.ofReal_sum]
  refine Finset.sum_congr rfl fun t ht => ?_
  rw [Finset.mem_Ico] at ht
  have hidx : (t + N - ℓ) % N = t - ℓ := by
    have h1 : t + N - ℓ = (t - ℓ) + N := by omega
    rw [h1, Nat.add_mod_right, Nat.mod_eq_of_lt (by omega)]
  rw [hidx, Complex.ofReal_mul]

lemma acorr_last_axis_eq_map (x : List ℝ) (N maxlag : ℕ) (h2 : maxlag + 1 ≤ N) :
    acorr_last_axis x N maxlag
      = (List.range (maxlag + 1)).map (fun l =>
          ((npifft ((npfft (x.map Complex.ofReal) N).map
              (fun z => ((Complex.normSq z : ℝ) : ℂ))) N).getD l 0).re / x.length) := by
  simp only [acorr_last_axis, npifft]
  rw [List.map_map, ← List.map_take, List.take_range, min_eq_left h2, List.map_map]
  refine List.map_congr_left fun l hl => ?_
  rw [List.mem_range] at hl
  rw [Function.comp_apply, Function.comp_apply,
    getD_map_range _ _ (lt_of_lt_of_le hl h2)]

/-- Central equivalence: provided the FFT length `N` leaves room for the
zero-padded shifts (`len(x) + maxlag ≤ N`) and for the requested lags
(`maxlag + 1 ≤ N`), the FFT-based autocorrelation of the source equals
the direct time-domain biased autocorrelation, exactly. -/
lemma acorr_fft_eq_direct (x : List ℝ) (N maxlag : ℕ)
    (h1 : x.length + maxlag ≤ N) (h2 : maxlag + 1 ≤ N) :
    acorr_last_axis x N maxlag = directBiasedAutocorr x maxlag := by
  rw [acorr_last_axis_eq_map x N maxlag h2, directBiasedAutocorr]
  refine List.map_congr_left fun l hl => ?_
  rw [List.mem_range] at hl
  rw [ifft_powerspec_getD x (by omega) (by omega), Complex.ofReal_re]

/-- The FFT length the source chooses for `maxlag ≥ 2` is at least
`2·maxlag` (it is a power of two that is at least the odd number
`2·maxlag − 1 ≥ 3`). -/
lemma nfft_ge_two_mul {L : ℕ} (hL : 2 ≤ L) :
    2 * L ≤ 2 ^ nextpow2 (2 * (L : ℤ) - 1) := by
  have hm : ¬ (2 * (L : ℤ) - 1 ≤ 1) := by omega
  rw [nextpow2, if_neg hm]
  have htoNat : (2 * (L : ℤ) - 1).toNat = 2 * L - 1 := by omega
  rw [htoNat]
  have hge : 2 * L - 1 ≤ 2 ^ Nat.clog 2 (2 * L - 1) :=
    Nat.le_pow_clog one_lt_two _
  have hpos : 0 < Nat.clog 2 (2 * L - 1) :=
    Nat.clog_pos one_lt_two (by omega)
  have heven : 2 ∣ 2 ^ Nat.clog 2 (2 * L - 1) :=
    dvd_pow_self 2 hpos.ne'
  omega

lemma acorr_last_axis_length (x : List ℝ) (N maxlag : ℕ) :
    (acorr_last_axis x N maxlag).length = min (maxlag + 1) N := by
  simp [acorr_last_axis, npifft]

lemma directBiasedAutocorr_length (x : List ℝ) (maxlag : ℕ) :
    (directBiasedAutocorr x maxlag).length = maxlag + 1 := by
  simp [directBiasedAutocorr]

/-- Claim C6 (amended): for every real frame and every lag bound `maxlag`
that is at least the frame length and at least 2 — as in the source's only
use, where `maxlag` is the frame length of a windowed analysis frame — the
FFT-based autocorrelation (zero-pad to the next power-of-two length
≥ 2·maxlag−1, forward transform, squared magnitude, inverse transform,
real part, truncate to maxlag+1 lags, divide by frame length) equals the
direct time-domain biased autocorrelation over the same lags, exactly. -/
theorem C6_fft_equals_direct (x : List ℝ) (maxlag : ℕ)
    (hlen : x.length ≤ maxlag) (h2 : 2 ≤ maxlag) :
    acorr_last_axis x (2 ^ nextpow2 (2 * (maxlag : ℤ) - 1)) maxlag
      = directBiasedAutocorr x maxlag := by
  have hN := nfft_ge_two_mul h2
  exact acorr_fft_eq_direct x _ maxlag (by omega) (by omega)

/-- Witness for C6: the frame `[1, 2]` with `maxlag = 2` satisfies the
hypotheses and the equality. -/
theorem C6_fft_equals_direct_witness :
    [(1 : ℝ), 2].length ≤ 2 ∧ 2 ≤ 2 ∧
      acorr_last_axis [(1 : ℝ), 2] (2 ^ nextpow2 (2 * (2 : ℤ) - 1)) 2
        = directBiasedAutocorr [(1 : ℝ), 2] 2 :=
  ⟨by decide, by decide, C6_fft_equals_direct [(1 : ℝ), 2] 2 (by decide) (by decide)⟩

/-- Counterexample for C6 as stated: for the frame `[0, 1]` and lag range
`0..1` the chosen FFT length is `2^0 = 1`, the transform truncates the
frame instead of zero-padding it, and the result has a single entry while
the direct biased autocorrelation over lags `0..1` has two. -/
theorem C6_counterexample :
    acorr_last_axis [(0 : ℝ), 1] (2 ^ nextpow2 (2 * (1 : ℤ) - 1)) 1
      ≠ directBiasedAutocorr [(0 : ℝ), 1] 1 := by
  intro h
  have h1 := acorr_last_axis_length [(0 : ℝ), 1] (2 ^ nextpow2 (2 * (1 : ℤ) - 1)) 1
  rw [h, directBiasedAutocorr_length] at h1
  rw [show nextpow2 (2 * (1 : ℤ) - 1) = 0 from by decide] at h1
  simp at h1

/-- Claim C3 (amended): the estimator takes no separate `maxlag` argument;
it fixes `maxlag` to the frame length `n`.  For every real frame of length
`n ≥ 2` it returns a vector of exactly `n + 1` entries, entry `ℓ` being
the biased autocorrelation at lag `ℓ` divided by the frame length (the
lag-`n` entry being the empty sum 0). -/
theorem C3_acorr_lpc_biased (x : List ℝ) (hx : 2 ≤ x.length) :
    acorr_lpc x = directBiasedAutocorr x x.length := by
  simp only [acorr_lpc]
  have hN := nfft_ge_two_mul hx
  exact acorr_fft_eq_direct x _ _ (by omega) (by omega)

/-- Witness for C3: the frame `[1, 2]` satisfies the hypothesis and the
equality. -/
theorem C3_acorr_lpc_biased_witness :
    2 ≤ [(1 : ℝ), 2].length ∧ acorr_lpc [(1 : ℝ), 2] = directBiasedAutocorr [(1 : ℝ), 2] 2 :=
  ⟨by decide, C3_acorr_lpc_biased [(1 : ℝ), 2] (by decide)⟩

/-- Counterexample for C3 as stated: for the one-sample frame `[1]` the
estimator chooses FFT length `2^0 = 1` and returns a single entry, not
`maxlag + 1 = 2` entries. -/
theorem C3_counterexample :
    (acorr_lpc [(1 : ℝ)]).length ≠ [(1 : ℝ)].length + 1 := by
  simp only [acorr_lpc]
  rw [acorr_last_axis_length]
  rw [show (2 : ℕ) ^ nextpow2 (2 * (([(1 : ℝ)].length : ℕ) : ℤ) - 1) = 1 from by decide]
  decide

/-! ### Levinson-Durbin: the loop matches the specified recursion -/

lemma getD_concat_at {β : Type} (l : List β) (v d : β) {idx : ℕ}
    (h : idx = l.length) : (l ++ [v]).getD idx d = v := by
  subst h
  rw [List.getD_eq_getElem?_getD, List.getElem?_append_right (le_refl _), Nat.sub_self]
  rfl

lemma getD_mapIdx {β : Type} (l : List β) (f : ℕ → β → β) (j : ℕ) (d : β)
    (hj : j < l.length) :
    (List.mapIdx f l).getD j d = f j (l.getD j d) := by
  have hj' : j < (List.mapIdx f l).length := by rw [List.length_mapIdx]; exact hj
  rw [List.getD_eq_getElem?_getD, List.getElem?_eq_getElem hj', List.getElem_mapIdx,
    List.getD_eq_getElem?_getD, List.getElem?_eq_getElem hj]
  rfl

lemma levinsonLoop_succ {α : Type} [Field α] [StarRing α] [DecidableEq α]
    (r : List α) (n : ℕ) :
    levinsonLoop r (n + 1) = levinsonStep r (n + 1) (levinsonLoop r n) := by
  rw [levinsonLoop, levinsonLoop, List.range'_concat, List.foldl_concat]
  have h1 : 1 + 1 * n = n + 1 := by omega
  rw [h1]

/-- The Levinson-Durbin recursion exactly as the spec words it (§4.1):
after step `i` the coefficients are the function `ℕ → α` in the first
component (`a[0] = 1`), the running error is the second, and the third
maps each step index `m ∈ 1..i` to its reflection coefficient
`k[m]`.  Step `i`: `k = −(r[i] + Σ_{j=1}^{i−1} a[j]·r[i−j])/e`, then
`a[j] += k·conj(a[i−j])` for `j = 1..i−1` reading the pre-update
snapshot, `a[i] = k`, and `e *= (1 − k·conj(k))`. -/
def levinsonSpecModel {α : Type} [Field α] [StarRing α] (r : List α) :
    ℕ → (ℕ → α) × α × (ℕ → α)
  | 0 => (fun j => if j = 0 then 1 else 0, r.getD 0 0, fun _ => 0)
  | i + 1 =>
    let a := (levinsonSpecModel r i).1
    let e := (levinsonSpecModel r i).2.1
    let kf := (levinsonSpecModel r i).2.2
    let k := -(r.getD (i + 1) 0 +
        ∑ j ∈ Finset.Ico 1 (i + 1), a j * r.getD (i + 1 - j) 0) / e
    (fun j => if j = i + 1 then k
        else if 1 ≤ j ∧ j < i + 1 then a j + k * star (a (i + 1 - j)) else a j,
      e * (1 - k * star k),
      fun m => if m = i + 1 then k else kf m)

lemma levinsonLoop_eq_spec {α : Type} [Field α] [StarRing α] [DecidableEq α]
    (r : List α) (n : ℕ) :
    (levinsonLoop r n).1.length = n + 1 ∧
    (levinsonLoop r n).2.2.length = n ∧
    (∀ j, j ≤ n → (levinsonLoop r n).1.getD j 0 = (levinsonSpecModel r n).1 j) ∧
    (levinsonLoop r n).2.1 = (levinsonSpecModel r n).2.1 ∧
    (∀ m, 1 ≤ m → m ≤ n →
      (levinsonLoop r n).2.2.getD (m - 1) 0 = (levinsonSpecModel r n).2.2 m) := by
  induction n with
  | zero =>
    refine ⟨rfl, rfl, ?_, rfl, ?_⟩
    · intro j hj
      interval_cases j
      rfl
    · intro m h1 h2
      omega
  | succ n ih =>
    obtain ⟨ihA, ihK, iha, ihe, ihk⟩ := ih
    rw [levinsonLoop_succ]
    simp only [levinsonStep, levinsonSpecModel]
    have hacc : (r.getD (n + 1) 0 + ∑ j ∈ Finset.Ico 1 (n + 1),
          (levinsonLoop r n).1.getD j 0 * r.getD (n + 1 - j) 0)
        = (r.getD (n + 1) 0 + ∑ j ∈ Finset.Ico 1 (n + 1),
          (levinsonSpecModel r n).1 j * r.getD (n + 1 - j) 0) := by
      congr 1
      refine Finset.sum_congr rfl fun j hj => ?_
      rw [Finset.mem_Ico] at hj
      rw [iha j (by omega)]
    have hki : -(r.getD (n + 1) 0 + ∑ j ∈ Finset.Ico 1 (n + 1),
          (levinsonLoop r n).1.getD j 0 * r.getD (n + 1 - j) 0) / (levinsonLoop r n).2.1
        = -(r.getD (n + 1) 0 + ∑ j ∈ Finset.Ico 1 (n + 1),
          (levinsonSpecModel r n).1 j * r.getD (n + 1 - j) 0) / (levinsonSpecModel r n).2.1 := by
      rw [hacc, ihe]
    have htlen : ((levinsonLoop r n).1 ++
        [-(r.getD (n + 1) 0 + ∑ j ∈ Finset.Ico 1 (n + 1),
          (levinsonLoop r n).1.getD j 0 * r.getD (n + 1 - j) 0) / (levinsonLoop r n).2.1]).length
        = n + 2 := by
      rw [List.length_append, ihA]
      rfl
    refine ⟨?_, ?_, ?_, ?_, ?_⟩
    · rw [List.length_mapIdx, htlen]
    · rw [List.length_append, ihK]
      rfl
    · intro j hj
      rw [getD_mapIdx _ _ _ _ (by rw [htlen]; omega)]
      by_cases hj1 : j = n + 1
      · subst hj1
        rw [if_neg (by omega), if_pos rfl]
        rw [getD_concat_at _ _ _ ihA.symm]
        exact hki
      · by_cases hj2 : 1 ≤ j
        · rw [if_pos ⟨hj2, by omega⟩, if_neg hj1, if_pos ⟨hj2, by omega⟩]
          rw [List.getD_append _ _ _ _ (by omega), List.getD_append _ _ _ _ (by omega)]
          rw [iha j (by omega), iha (n + 1 - j) (by omega), hki]
        · have hj0 : j = 0 := by omega
          subst hj0
          rw [if_neg (by omega), if_neg hj1, if_neg (by omega)]
          rw [List.getD_append _ _ _ _ (by omega), iha 0 (by omega)]
    · rw [hacc, ihe]
    · intro m h1 h2
      by_cases hm : m = n + 1
      · subst hm
        rw [if_pos rfl]
        rw [getD_concat_at _ _ _ (by rw [ihK]; omega)]
        exact hki
      · rw [if_neg hm]
        rw [List.getD_append _ _ _ _ (by omega), ihk m h1 (by omega)]

lemma levinsonSpecModel_a0 {α : Type} [Field α] [StarRing α] (r : List α) :
    ∀ n : ℕ, (levinsonSpecModel r n).1 0 = 1 := by
  intro n
  induction n with
  | zero => rfl
  | succ n ih =>
    simp only [levinsonSpecModel]
    rw [if_neg (by omega), if_neg (by omega)]
    exact ih

/-- Claim C5 (confirmed): for every autocorrelation vector satisfying the
preconditions (`r[0]` real and nonzero, `order ≤ n−1`), `levinson_1d`
computes exactly the specified Levinson-Durbin recursion
(`levinsonSpecModel`, transcribed from the spec's wording): `a[0] = 1`
and `e = r[0]` initially; at step `i`,
`k[i] = −(r[i] + Σ_{j=1}^{i−1} a[j]·r[i−j])/e`, the updates
`a[j] += k[i]·conj(a[i−j])` read only the pre-update snapshot,
`a[i] = k[i]`, and `e *= (1 − k[i]·conj(k[i]))`; in particular the
returned coefficients satisfy `coefficients[0] = 1`. -/
theorem C5_levinson_matches_spec_recursion {α : Type} [Field α] [StarRing α]
    [DecidableEq α] (r : List α) (order : ℕ) (hord : order < r.length)
    (hreal : star (r.getD 0 0) = r.getD 0 0) (hnz : r.getD 0 0 ≠ 0) :
    ∃ a e k, levinson_1d r order = .ok (a, e, k) ∧
      a.length = order + 1 ∧ k.length = order ∧ a.getD 0 0 = 1 ∧
      (∀ j, j ≤ order → a.getD j 0 = (levinsonSpecModel r order).1 j) ∧
      e = (levinsonSpecModel r order).2.1 ∧
      (∀ m, 1 ≤ m → m ≤ order → k.getD (m - 1) 0 = (levinsonSpecModel r order).2.2 m) := by
  have hok : levinson_1d r order = .ok (levinsonLoop r order) := by
    rw [levinson_1d, if_neg (by omega), if_neg (by omega),
      if_neg (not_not_intro hreal), if_neg hnz]
  obtain ⟨hA, hK, ha, he, hk⟩ := levinsonLoop_eq_spec r order
  refine ⟨(levinsonLoop r order).1, (levinsonLoop r order).2.1,
    (levinsonLoop r order).2.2, ?_, hA, hK, ?_, ha, he, hk⟩
  · rw [hok]
  · rw [ha 0 (Nat.zero_le _), levinsonSpecModel_a0]

/-- Witness for C5: the rational vector `r = [4, 2]` with `order = 1`
satisfies the preconditions, and the theorem applies to it. -/
theorem C5_levinson_matches_spec_recursion_witness :
    1 < [(4 : ℚ), 2].length ∧
    star ([(4 : ℚ), 2].getD 0 0) = [(4 : ℚ), 2].getD 0 0 ∧
    [(4 : ℚ), 2].getD 0 0 ≠ 0 ∧
    (∃ a e k, levinson_1d [(4 : ℚ), 2] 1 = .ok (a, e, k) ∧
      a.length = 1 + 1 ∧ k.length = 1 ∧ a.getD 0 0 = 1 ∧
      (∀ j, j ≤ 1 → a.getD j 0 = (levinsonSpecModel [(4 : ℚ), 2] 1).1 j) ∧
      e = (levinsonSpecModel [(4 : ℚ), 2] 1).2.1 ∧
      (∀ m, 1 ≤ m → m ≤ 1 →
        k.getD (m - 1) 0 = (levinsonSpecModel [(4 : ℚ), 2] 1).2.2 m)) :=
  ⟨by decide, by decide, by decide,
    C5_levinson_matches_spec_recursion [(4 : ℚ), 2] 1 (by decide) (by decide) (by decide)⟩

/-- Claim C7 (confirmed): `levinson_1d` fails with an invalid-input error
if and only if `r[0]` is not real, `r[0]` is zero (the exact-arithmetic
reading of "reciprocal not finite"; an empty `r` reads as 0), or `order`
exceeds `n − 1` (an empty `r` always does); on every input satisfying
the preconditions it returns a result without raising. -/
theorem C7_levinson_error_iff {α : Type} [Field α] [StarRing α] [DecidableEq α]
    (r : List α) (order : ℕ) :
    (∃ msg, levinson_1d r order = .error msg) ↔
      ¬ star (r.getD 0 0) = r.getD 0 0 ∨ r.getD 0 0 = 0 ∨ r.length ≤ order := by
  rw [levinson_1d]
  by_cases h1 : r.length < 1
  · rw [if_pos h1]
    exact iff_of_true ⟨_, rfl⟩ (Or.inr (Or.inr (by omega)))
  · rw [if_neg h1]
    by_cases h2 : r.length ≤ order
    · rw [if_pos h2]
      exact iff_of_true ⟨_, rfl⟩ (Or.inr (Or.inr h2))
    · rw [if_neg h2]
      by_cases h3 : ¬ star (r.getD 0 0) = r.getD 0 0
      · rw [if_pos h3]
        exact iff_of_true ⟨_, rfl⟩ (Or.inl h3)
      · rw [if_neg h3]
        by_cases h4 : r.getD 0 0 = 0
        · rw [if_pos h4]
          exact iff_of_true ⟨_, rfl⟩ (Or.inr (Or.inl h4))
        · rw [if_neg h4]
          refine iff_of_false ?_ ?_
          · rintro ⟨m, hm⟩
            exact Except.noConfusion hm
          · rintro (h | h | h)
            · exact h3 h
            · exact h4 h
            · exact h2 h

/-! ### Root-to-candidate conversion and configuration handling -/

lemma mergeSort_singleton {β : Type} (le : β → β → Bool) (x : β) :
    [x].mergeSort le = [x] :=
  List.perm_singleton.mp (List.mergeSort_perm [x] le)

/-- Claim C2 (amended): for every working rate and root list, the
candidate list is sorted in ascending frequency order and is a
permutation of the conversions of the retained roots (those with
non-negative imaginary part), where the frequency is
`atan2(Im, Re)·sr/(2π)` as claimed but the bandwidth carries the source's
extra factor `1/2`: `−1/2·(sr/(2π))·ln|root|`. -/
theorem C2_root_conversion_sorted_perm (sr : ℝ) (rts : List ℂ) :
    List.Sorted (fun p q : ℝ × ℝ => p.1 ≤ q.1) (rootCandidates sr rts) ∧
    (rootCandidates sr rts).Perm
      ((rts.filter (fun r => 0 ≤ r.im)).map (fun r =>
        (r.arg * (sr / (2 * Real.pi)),
         -1 / 2 * (sr / (2 * Real.pi)) * Real.log (Complex.abs r)))) := by
  constructor
  · have hs := @List.sorted_mergeSort _
      (fun p q : ℝ × ℝ => decide (p.1 ≤ q.1))
      (fun a b c hab hbc => by
        simp only [decide_eq_true_eq] at hab hbc ⊢
        exact le_trans hab hbc)
      (fun a b => by
        simp only [Bool.or_eq_true, decide_eq_true_eq]
        exact le_total a.1 b.1)
      ((rts.filter (fun r => 0 ≤ r.im)).map (fun r =>
        (r.arg * (sr / (2 * Real.pi)),
         -1 / 2 * (sr / (2 * Real.pi)) * Real.log (Complex.abs r))))
    rw [rootCandidates]
    exact hs.imp (fun h => of_decide_eq_true h)
  · exact List.mergeSort_perm _ _

/-- Counterexample for C2 as stated: for the single real root `2` at
working rate `2π`, the source computes bandwidth `−1/2·ln 2` while the
claim's formula gives `−ln 2`; the candidate lists differ. -/
theorem C2_counterexample :
    rootCandidates (2 * Real.pi) [(2 : ℂ)]
      ≠ rootCandidatesClaim (2 * Real.pi) [(2 : ℂ)] := by
  have hfil : ([(2 : ℂ)].filter (fun r => 0 ≤ r.im)) = [(2 : ℂ)] := by
    simp
  rw [rootCandidates, rootCandidatesClaim, hfil]
  simp only [List.map_cons, List.map_nil, mergeSort_singleton]
  intro h
  have h2 := List.head_eq_of_cons_eq h
  have h3 := congrArg Prod.snd h2
  simp only at h3
  have habs : Complex.abs 2 = 2 := Complex.abs_two
  rw [habs] at h3
  have hpi : (2 * Real.pi) / (2 * Real.pi) = 1 :=
    div_self (by positivity)
  rw [hpi] at h3
  have hlog : 0 < Real.log 2 := Real.log_pos one_lt_two
  nlinarith [h3, hlog]

/-- Claim C4 (code bug): `LpcFormants.__init__` forwards the literal
`'gaussian'` to `Formants.__init__` regardless of the caller's
`window_shape` argument, so an extractor constructed with `hann` still
stores `'gaussian'` and doubles the configured window length; the hann
window is never applied. -/
theorem C4_window_shape_ignored (mf : ℝ) (nf : ℕ) (wl ts : ℝ) :
    (LpcFormants_init mf nf wl ts "hann").window_shape = "gaussian" ∧
    (LpcFormants_init mf nf wl ts "hann").win_len = wl * 2 := by
  constructor
  · rfl
  · simp [LpcFormants_init, Formants_init]

/-! ### Helpers for the extractor-level and projection-level claims -/

lemma mapM_ok {γ δ : Type} (f : γ → Except String δ) (g : γ → δ) :
    ∀ l : List γ, (∀ x ∈ l, f x = .ok (g x)) → l.mapM f = .ok (l.map g) := by
  intro l
  induction l with
  | nil => intro _; rfl
  | cons a l ih =>
    intro h
    rw [List.mapM_cons, h a (List.mem_cons_self a l), ih (fun x hx => h x (List.mem_cons_of_mem a hx))]
    rfl

lemma mapM_ok_mem {γ δ : Type} (f : γ → Except String δ) :
    ∀ (l : List γ) (ys : List δ), l.mapM f = .ok ys →
      ∀ y ∈ ys, ∃ x ∈ l, f x = .ok y := by
  intro l
  induction l with
  | nil =>
    intro ys h y hy
    have : ys = [] := by
      have h' : (Except.ok [] : Except String (List δ)) = .ok ys := h
      exact (Except.ok.injEq _ _).mp h'.symm ▸ rfl
    subst this
    exact absurd hy (List.not_mem_nil y)
  | cons a l ih =>
    intro ys h y hy
    rw [List.mapM_cons] at h
    cases hfa : f a with
    | error e =>
      rw [hfa] at h
      exact Except.noConfusion h
    | ok b =>
      rw [hfa] at h
      cases hml : l.mapM f with
      | error e =>
        rw [hml] at h
        exact Except.noConfusion h
      | ok bs =>
        rw [hml] at h
        have hys : ys = b :: bs := by
          have : (Except.ok (b :: bs) : Except String (List δ)) = .ok ys := h
          exact ((Except.ok.injEq _ _).mp this).symm
        subst hys
        rcases List.mem_cons.mp hy with hyb | hybs
        · exact ⟨a, List.mem_cons_self a l, hyb ▸ hfa⟩
        · obtain ⟨x, hx, hfx⟩ := ih bs hml y hybs
          exact ⟨x, List.mem_cons_of_mem a hx, hfx⟩

lemma find?_key_nodup {κ : Type} [DecidableEq κ] {β : Type} :
    ∀ (rep : List (κ × β)), (rep.map Prod.fst).Nodup →
      ∀ p ∈ rep, rep.find? (fun q => decide (q.1 = p.1)) = some p := by
  intro rep
  induction rep with
  | nil =>
    intro _ p hp
    exact absurd hp (List.not_mem_nil p)
  | cons a l ih =>
    intro hnod p hp
    rw [List.map_cons, List.nodup_cons] at hnod
    rcases List.mem_cons.mp hp with hpa | hpl
    · subst hpa
      rw [List.find?_cons_of_pos _ (by simp)]
    · have hne : ¬ a.1 = p.1 := by
        intro he
        exact hnod.1 (he ▸ List.mem_map_of_mem Prod.fst hpl)
      rw [List.find?_cons_of_neg _ (by simp [hne])]
      exact ih hnod.2 p hpl

lemma processWindow_length (s : String) (n : ℕ) :
    (processWindow s n).length = n := by
  rw [processWindow]
  split_ifs
  · rw [List.length_take, List.length_drop, gaussianWin, List.length_map,
      List.length_range]
    omega
  · rw [List.length_take, List.length_drop, hanningWin, List.length_map,
      List.length_range]
    omega

lemma perm_pair_eq {β : Type} {l : List β} {a : β} (h : l.Perm [a, a]) :
    l = [a, a] := by
  have hrep : ([a, a] : List β) = List.replicate 2 a := rfl
  rw [hrep] at h ⊢
  rw [List.eq_replicate_iff]
  refine ⟨h.length_eq.trans (List.length_replicate 2 a), fun b hb => ?_⟩
  have := h.mem_iff.mp hb
  rw [List.eq_of_mem_replicate this]

lemma acorr_lpc_eq_direct (x : List ℝ) (hx : 2 ≤ x.length) :
    acorr_lpc x = directBiasedAutocorr x x.length := by
  simp only [acorr_lpc]
  have hN := nfft_ge_two_mul hx
  exact acorr_fft_eq_direct x _ _ (by omega) (by omega)

lemma filterPad_eq (mf : ℝ) (nf : ℕ) (cands : List (ℝ × ℝ)) :
    filterPad mf nf cands
      = ((cands.filter (fun p => decide (¬ p.1 < 50) && decide (¬ mf - 50 < p.1))).map
          (fun c => ((some c.1, some c.2) : Option ℝ × Option ℝ)))
        ++ List.replicate
            (nf - (cands.filter
              (fun p => decide (¬ p.1 < 50) && decide (¬ mf - 50 < p.1))).length)
            ((none : Option ℝ), (none : Option ℝ)) := by
  rw [filterPad]
  rw [List.length_map]

lemma filterPad_length (mf : ℝ) (nf : ℕ) (cands : List (ℝ × ℝ)) :
    (filterPad mf nf cands).length
      = max nf (cands.filter
          (fun p => decide (¬ p.1 < 50) && decide (¬ mf - 50 < p.1))).length := by
  rw [filterPad]
  rw [List.length_append, List.length_map, List.length_replicate]
  omega

lemma processFrame_ok_snd (cfg : FormantsConfig) (fr : List ℝ → List ℂ)
    (proc window : List ℝ) (sr : ℝ) (h i : ℕ) (y : ℝ × FormantFrame)
    (hok : processFrame cfg fr proc window sr h i = .ok y) :
    ∃ A : List ℝ,
      y.2 = filterPad cfg.max_freq cfg.num_formants (rootCandidates sr (fr A)) := by
  rw [processFrame] at hok
  cases hmul : numpyMul ((proc.drop (i - h)).take (2 * h)) window with
  | error e =>
    rw [hmul, exceptBind_error] at hok
    exact Except.noConfusion hok
  | ok Xw =>
    rw [hmul, exceptBind_ok] at hok
    cases hlpc : lpc Xw (2 * cfg.num_formants) with
    | error e =>
      rw [hlpc, exceptBind_error] at hok
      exact Except.noConfusion hok
    | ok Aek =>
      rw [hlpc, exceptBind_ok] at hok
      have hy := (Except.ok.injEq _ _).mp hok
      exact ⟨Aek.1, by rw [← hy]⟩

/-- Claim C9 (amended): a signal with fewer than `2·(nperseg/2)` samples
(for even `nperseg` this is exactly "shorter than one analysis window")
and a positive frame hop yields a normal completion with an empty track. -/
theorem C9_short_signal_empty_track (cfg : FormantsConfig)
    (fr : List ℝ → List ℂ) (proc : List ℝ)
    (hstep : (Int.floor (cfg.time_step * (2 * cfg.max_freq))).toNat ≠ 0)
    (hshort : proc.length <
      2 * ((Int.floor (cfg.win_len * (2 * cfg.max_freq))).toNat / 2)) :
    process cfg fr proc = .ok [] := by
  simp only [process]
  rw [if_neg hstep]
  have harange : arangeNat ((Int.floor (cfg.win_len * (2 * cfg.max_freq))).toNat / 2)
      ((proc.length : ℤ) -
        (((Int.floor (cfg.win_len * (2 * cfg.max_freq))).toNat / 2 : ℕ) : ℤ) + 1)
      (Int.floor (cfg.time_step * (2 * cfg.max_freq))).toNat = [] := by
    rw [arangeNat, if_pos (by omega)]
  rw [harange]
  rfl

/-! ### Concrete extraction runs -/

/-- Config for the C9 witness: `new_sr = 400`, `nperseg = 4`, `nperstep = 1`. -/
noncomputable def cfgW9 : FormantsConfig := ⟨200, 1, 1/100, 1/400, "gaussian"⟩

/-- Config for the C9 counterexample: `nperseg = 3` (odd), `nperstep = 1`. -/
noncomputable def cfgX9 : FormantsConfig := ⟨200, 1, 3/400, 1/400, "gaussian"⟩

/-- Config for the C1 run: `nperseg = 2`, `nperstep = 1`, one formant. -/
noncomputable def cfgA : FormantsConfig := ⟨200, 1, 1/200, 1/400, "gaussian"⟩

lemma cfgW9_nperstep : (Int.floor (cfgW9.time_step * (2 * cfgW9.max_freq))).toNat = 1 := by
  have h : cfgW9.time_step * (2 * cfgW9.max_freq) = ((1 : ℤ) : ℝ) := by
    show (1/400 : ℝ) * (2 * 200) = ((1 : ℤ) : ℝ)
    push_cast
    norm_num
  rw [h, Int.floor_intCast]
  rfl

lemma cfgW9_nperseg : (Int.floor (cfgW9.win_len * (2 * cfgW9.max_freq))).toNat = 4 := by
  have h : cfgW9.win_len * (2 * cfgW9.max_freq) = ((4 : ℤ) : ℝ) := by
    show (1/100 : ℝ) * (2 * 200) = ((4 : ℤ) : ℝ)
    push_cast
    norm_num
  rw [h, Int.floor_intCast]
  rfl

lemma cfgX9_nperstep : (Int.floor (cfgX9.time_step * (2 * cfgX9.max_freq))).toNat = 1 := by
  have h : cfgX9.time_step * (2 * cfgX9.max_freq) = ((1 : ℤ) : ℝ) := by
    show (1/400 : ℝ) * (2 * 200) = ((1 : ℤ) : ℝ)
    push_cast
    norm_num
  rw [h, Int.floor_intCast]
  rfl

lemma cfgX9_nperseg : (Int.floor (cfgX9.win_len * (2 * cfgX9.max_freq))).toNat = 3 := by
  have h : cfgX9.win_len * (2 * cfgX9.max_freq) = ((3 : ℤ) : ℝ) := by
    show (3/400 : ℝ) * (2 * 200) = ((3 : ℤ) : ℝ)
    push_cast
    norm_num
  rw [h, Int.floor_intCast]
  rfl

lemma cfgA_nperstep : (Int.floor (cfgA.time_step * (2 * cfgA.max_freq))).toNat = 1 := by
  have h : cfgA.time_step * (2 * cfgA.max_freq) = ((1 : ℤ) : ℝ) := by
    show (1/400 : ℝ) * (2 * 200) = ((1 : ℤ) : ℝ)
    push_cast
    norm_num
  rw [h, Int.floor_intCast]
  rfl

lemma cfgA_nperseg : (Int.floor (cfgA.win_len * (2 * cfgA.max_freq))).toNat = 2 := by
  have h : cfgA.win_len * (2 * cfgA.max_freq) = ((2 : ℤ) : ℝ) := by
    show (1/200 : ℝ) * (2 * 200) = ((2 : ℤ) : ℝ)
    push_cast
    norm_num
  rw [h, Int.floor_intCast]
  rfl

/-- Witness for C9: a 3-sample signal with a 4-sample window completes
with an empty track. -/
theorem C9_short_signal_empty_track_witness :
    (Int.floor (cfgW9.time_step * (2 * cfgW9.max_freq))).toNat ≠ 0 ∧
    [(0 : ℝ), 0, 0].length <
      2 * ((Int.floor (cfgW9.win_len * (2 * cfgW9.max_freq))).toNat / 2) ∧
    process cfgW9 (fun _ => []) [(0 : ℝ), 0, 0] = .ok [] :=
  ⟨by rw [cfgW9_nperstep]; exact one_ne_zero,
   by rw [cfgW9_nperseg]; decide,
   C9_short_signal_empty_track cfgW9 (fun _ => []) [(0 : ℝ), 0, 0]
     (by rw [cfgW9_nperstep]; exact one_ne_zero)
     (by rw [cfgW9_nperseg]; decide)⟩

/-- Counterexample for C9 as stated: with `nperseg = 3` (odd), a 2-sample
signal is shorter than one analysis window, yet the single attempted
frame has `2·(nperseg/2) = 2` samples against a 3-sample window and the
elementwise multiply raises instead of yielding an empty track. -/
theorem C9_counterexample :
    ∃ msg, process cfgX9 (fun _ => []) [(1 : ℝ), 1] = .error msg := by
  refine ⟨"operands could not be broadcast together", ?_⟩
  simp only [process]
  rw [cfgX9_nperseg, cfgX9_nperstep]
  rw [if_neg one_ne_zero]
  rw [show arangeNat ((3 : ℕ) / 2)
      ((([(1 : ℝ), 1].length : ℕ) : ℤ) - (((3 : ℕ) / 2 : ℕ) : ℤ) + 1) 1 = [1]
    from by decide]
  rw [List.mapM_cons, List.mapM_nil]
  have hmulX : numpyMul [(1 : ℝ), 1] (processWindow cfgX9.window_shape 3)
      = .error "operands could not be broadcast together" := by
    rw [numpyMul]
    rw [if_neg (by simp [processWindow_length]), if_neg (by simp),
      if_neg (by simp [processWindow_length])]
  have hpf : processFrame cfgX9 (fun _ => []) [(1 : ℝ), 1]
      (processWindow cfgX9.window_shape 3) (2 * cfgX9.max_freq) ((3 : ℕ) / 2) 1
      = .error "operands could not be broadcast together" := by
    simp only [processFrame]
    rw [show List.take (2 * ((3 : ℕ) / 2)) (List.drop (1 - (3 : ℕ) / 2) [(1 : ℝ), 1])
        = [(1 : ℝ), 1] from rfl]
    rw [hmulX, exceptBind_error]
  rw [hpf]
  rfl

/-- A constant root oracle returning the conjugate pair `{i, −i}` — the
shape `np.roots` produces on a real-coefficient quadratic (complex roots
in exact conjugate pairs). -/
def rootsA : List ℝ → List ℂ := fun _ => [Complex.I, -Complex.I]

lemma processWindow_gaussian_pos (n : ℕ) :
    ∀ v ∈ processWindow "gaussian" n, 0 < v := by
  intro v hv
  rw [processWindow, if_pos rfl] at hv
  have hv3 : v ∈ gaussianWin (n + 2) (0.45 * ((n : ℝ) - 1) / 2) :=
    List.mem_of_mem_drop (List.mem_of_mem_take hv)
  rw [gaussianWin] at hv3
  obtain ⟨m, _, rfl⟩ := List.mem_map.mp hv3
  exact Real.exp_pos _

lemma numpyMul_one_pair (w1 w2 : ℝ) :
    numpyMul [(1 : ℝ), 1] [w1, w2] = .ok [1 * w1, 1 * w2] := by
  rw [numpyMul,
    if_pos (show [(1 : ℝ), 1].length = [w1, w2].length from rfl)]
  rfl

lemma lpcA_ok (w1 w2 : ℝ) (hw1 : 0 < w1) (hw2 : 0 < w2) :
    lpc [1 * w1, 1 * w2] 2 = .ok (levinsonLoop (acorr_lpc [1 * w1, 1 * w2]) 2) := by
  have hr : acorr_lpc [1 * w1, 1 * w2] = directBiasedAutocorr [1 * w1, 1 * w2] 2 :=
    acorr_lpc_eq_direct [1 * w1, 1 * w2] (by simp)
  have hr0 : (acorr_lpc [1 * w1, 1 * w2]).getD 0 0 ≠ 0 := by
    rw [hr, directBiasedAutocorr, getD_map_range _ _ (by norm_num : (0 : ℕ) < 2 + 1)]
    have hico : Finset.Ico 0 ([1 * w1, 1 * w2] : List ℝ).length = Finset.range 2 := by
      rw [show ([1 * w1, 1 * w2] : List ℝ).length = 2 from rfl, Finset.range_eq_Ico]
    rw [hico, Finset.sum_range_succ, Finset.sum_range_succ, Finset.sum_range_zero]
    show (0 + 1 * w1 * (1 * w1) + 1 * w2 * (1 * w2)) / (2 : ℝ) ≠ 0
    have hpos : (0 : ℝ) < (0 + 1 * w1 * (1 * w1) + 1 * w2 * (1 * w2)) / 2 := by
      nlinarith [mul_pos hw1 hw1, mul_pos hw2 hw2]
    exact ne_of_gt hpos
  have h1 : ¬ ((acorr_lpc [1 * w1, 1 * w2]).length < 1) := by
    rw [hr, directBiasedAutocorr_length]
    norm_num
  have h2 : ¬ ((acorr_lpc [1 * w1, 1 * w2]).length ≤ 2) := by
    rw [hr, directBiasedAutocorr_length]
    norm_num
  have h3 : ¬ ¬ (star ((acorr_lpc [1 * w1, 1 * w2]).getD 0 0)
      = (acorr_lpc [1 * w1, 1 * w2]).getD 0 0) :=
    not_not_intro (star_trivial _)
  rw [lpc, if_neg (by simp), levinson_1d, if_neg h1, if_neg h2, if_neg h3, if_neg hr0]

lemma candA : rootCandidates 400 [Complex.I, -Complex.I]
    = [((100 : ℝ), (0 : ℝ))] := by
  rw [rootCandidates]
  have hfil : List.filter (fun r : ℂ => decide (0 ≤ r.im)) [Complex.I, -Complex.I]
      = [Complex.I] := by
    simp [List.filter_cons, Complex.I_im, Complex.neg_im]
  rw [hfil, List.map_cons, List.map_nil]
  have hfreq : Complex.I.arg * ((400 : ℝ) / (2 * Real.pi)) = 100 := by
    rw [Complex.arg_I]
    have hpi := Real.pi_ne_zero
    field_simp
    ring
  have hbw : -1 / 2 * ((400 : ℝ) / (2 * Real.pi)) * Real.log (Complex.abs Complex.I)
      = 0 := by
    rw [Complex.abs_I, Real.log_one, mul_zero]
  rw [hfreq, hbw]
  exact mergeSort_singleton _ _

lemma padA : filterPad cfgA.max_freq cfgA.num_formants [((100 : ℝ), (0 : ℝ))]
    = [(some (100 : ℝ), some (0 : ℝ))] := by
  simp only [filterPad]
  have hfilp : List.filter
      (fun p : ℝ × ℝ => decide (¬ p.1 < 50) && decide (¬ cfgA.max_freq - 50 < p.1))
      [((100 : ℝ), (0 : ℝ))] = [((100 : ℝ), (0 : ℝ))] := by
    rw [List.filter_eq_self]
    intro a ha
    have haa : a = ((100 : ℝ), (0 : ℝ)) := by simpa using ha
    subst haa
    have hlt1 : ¬ ((100 : ℝ) < 50) := by norm_num
    have hlt2 : ¬ (cfgA.max_freq - 50 < (100 : ℝ)) := by
      show ¬ ((200 : ℝ) - 50 < 100)
      norm_num
    simp [hlt1, hlt2]
  rw [hfilp]
  rfl

lemma processA_frame :
    processFrame cfgA rootsA [(1 : ℝ), 1] (processWindow cfgA.window_shape 2)
      (2 * cfgA.max_freq) ((2 : ℕ) / 2) 1
    = .ok ((1 : ℝ) / 400, [(some (100 : ℝ), some (0 : ℝ))]) := by
  obtain ⟨w1, w2, hW⟩ :=
    List.length_eq_two.mp (processWindow_length cfgA.window_shape 2)
  have hW' : processWindow "gaussian" 2 = [w1, w2] := hW
  have hw1 : 0 < w1 :=
    processWindow_gaussian_pos 2 w1 (by rw [hW']; exact List.mem_cons_self _ _)
  have hw2 : 0 < w2 :=
    processWindow_gaussian_pos 2 w2 (by rw [hW']; simp)
  simp only [processFrame]
  rw [show List.take (2 * ((2 : ℕ) / 2)) (List.drop (1 - (2 : ℕ) / 2) [(1 : ℝ), 1])
      = [(1 : ℝ), 1] from rfl]
  rw [hW, numpyMul_one_pair w1 w2, exceptBind_ok]
  rw [show (2 * cfgA.num_formants) = 2 from rfl]
  rw [lpcA_ok w1 w2 hw1 hw2, exceptBind_ok]
  rw [show ∀ l : List ℝ, rootsA l = [Complex.I, -Complex.I] from fun _ => rfl]
  rw [show (2 : ℝ) * cfgA.max_freq = 400 from by
    show (2 : ℝ) * 200 = 400
    norm_num]
  rw [candA, padA, Nat.cast_one]

lemma processA_run :
    process cfgA rootsA [(1 : ℝ), 1]
      = .ok [((1 : ℝ) / 400, [(some (100 : ℝ), some (0 : ℝ))])] := by
  simp only [process]
  rw [cfgA_nperseg, cfgA_nperstep, if_neg one_ne_zero]
  rw [show arangeNat ((2 : ℕ) / 2)
      ((([(1 : ℝ), 1].length : ℕ) : ℤ) - (((2 : ℕ) / 2 : ℕ) : ℤ) + 1) 1 = [1]
    from by decide]
  rw [List.mapM_cons, List.mapM_nil, processA_frame]
  rfl

/-! ### The track projection `to_array` -/

lemma sorted_mergeSort_le (l : List ℝ) :
    List.Sorted (fun a b : ℝ => a ≤ b) (l.mergeSort (fun a b => decide (a ≤ b))) := by
  have hs := @List.sorted_mergeSort _ (fun a b : ℝ => decide (a ≤ b))
    (fun a b c hab hbc => by
      simp only [decide_eq_true_eq] at hab hbc ⊢
      exact le_trans hab hbc)
    (fun a b => by
      simp only [Bool.or_eq_true, decide_eq_true_eq]
      exact le_total a b) l
  exact hs.imp (fun h => of_decide_eq_true h)

lemma sorted_mergeSort_key (l : List (ℝ × FormantFrame)) :
    List.Sorted (fun p q : ℝ × FormantFrame => p.1 ≤ q.1)
      (l.mergeSort (fun p q => decide (p.1 ≤ q.1))) := by
  have hs := @List.sorted_mergeSort _ (fun p q : ℝ × FormantFrame => decide (p.1 ≤ q.1))
    (fun a b c hab hbc => by
      simp only [decide_eq_true_eq] at hab hbc ⊢
      exact le_trans hab hbc)
    (fun a b => by
      simp only [Bool.or_eq_true, decide_eq_true_eq]
      exact le_total a.1 b.1) l
  exact hs.imp (fun h => of_decide_eq_true h)

/-- Sorting the keys and taking the keys of the sorted pair list agree
(the keys of a track are distinct, and `≤` on `ℝ` is antisymmetric). -/
lemma mergeSort_keys_comm (rep : List (ℝ × FormantFrame)) :
    (rep.map Prod.fst).mergeSort (fun a b => decide (a ≤ b))
      = (rep.mergeSort (fun p q => decide (p.1 ≤ q.1))).map Prod.fst := by
  apply @List.eq_of_perm_of_sorted ℝ (fun a b : ℝ => a ≤ b) _ _ _
  · exact (List.mergeSort_perm _ _).trans
      (((List.mergeSort_perm rep _).map Prod.fst).symm)
  · exact sorted_mergeSort_le _
  · exact (List.pairwise_map).mpr (sorted_mergeSort_key rep)

lemma to_array_eval (t0 : ℝ) (ex : FormantFrame) (rest : List (ℝ × FormantFrame))
    (hnod : (((t0, ex) :: rest).map Prod.fst).Nodup)
    (hlen : ∀ p ∈ (t0, ex) :: rest, p.2.length = ex.length)
    (value : String) (proj : Option ℝ × Option ℝ → Option ℝ)
    (hval : ∀ frame : FormantFrame,
      (if value = "formant" then frame.map Prod.fst
       else if value = "bandwidth" then frame.map Prod.snd
       else List.replicate ex.length (some 0)) = frame.map proj) :
    to_array ((t0, ex) :: rest) value
      = .ok ((((t0, ex) :: rest).mergeSort (fun p q => decide (p.1 ≤ q.1))).map
          (fun p => p.2.map proj)) := by
  simp only [to_array]
  rw [mergeSort_keys_comm]
  have hms_mem : ∀ p ∈ ((t0, ex) :: rest).mergeSort
      (fun p q : ℝ × FormantFrame => decide (p.1 ≤ q.1)), p ∈ (t0, ex) :: rest :=
    fun p hp => (List.mergeSort_perm _ _).mem_iff.mp hp
  have hfind : ∀ p ∈ ((t0, ex) :: rest).mergeSort
      (fun p q : ℝ × FormantFrame => decide (p.1 ≤ q.1)),
      ((t0, ex) :: rest).find? (fun q => decide (q.1 = p.1)) = some p :=
    fun p hp => find?_key_nodup _ hnod p (hms_mem p hp)
  have hgmap : ((((t0, ex) :: rest).mergeSort
        (fun p q : ℝ × FormantFrame => decide (p.1 ≤ q.1))).map Prod.fst).map
        (fun t => (((((t0, ex) :: rest).find?
            (fun q => decide (q.1 = t))).map Prod.snd).getD []).map proj)
      = (((t0, ex) :: rest).mergeSort
          (fun p q : ℝ × FormantFrame => decide (p.1 ≤ q.1))).map
          (fun p => p.2.map proj) := by
    rw [List.map_map]
    refine List.map_congr_left fun p hp => ?_
    simp only [Function.comp_apply]
    rw [hfind p hp]
    rfl
  rw [← hgmap]
  apply mapM_ok
  intro t ht
  obtain ⟨p, hp, hpt⟩ := List.mem_map.mp ht
  subst hpt
  rw [hfind p hp]
  simp only [Option.map_some', Option.getD_some]
  rw [hval p.2]
  rw [if_pos (by rw [List.length_map]; exact hlen p (hms_mem p hp))]
  rfl

/-- Claim C8 (amended): for every nonempty completed FormantTrack whose
frames all have the length of the first-recorded frame, the projection
returns one row per recorded frame ordered by ascending time key, row `i`
holding the frequencies (channel `formant`) or bandwidths (channel
`bandwidth`) of the frame with the `i`-th smallest key; an empty track
makes the projection raise (`StopIteration`) rather than return an empty
array, and a track with frames of differing lengths raises at the row
assignment. -/
theorem C8_to_array_rows (t0 : ℝ) (ex : FormantFrame)
    (rest : List (ℝ × FormantFrame))
    (hnod : (((t0, ex) :: rest).map Prod.fst).Nodup)
    (hlen : ∀ p ∈ (t0, ex) :: rest, p.2.length = ex.length) :
    to_array ((t0, ex) :: rest) "formant"
        = .ok ((((t0, ex) :: rest).mergeSort (fun p q => decide (p.1 ≤ q.1))).map
            (fun p => p.2.map Prod.fst)) ∧
    to_array ((t0, ex) :: rest) "bandwidth"
        = .ok ((((t0, ex) :: rest).mergeSort (fun p q => decide (p.1 ≤ q.1))).map
            (fun p => p.2.map Prod.snd)) :=
  ⟨to_array_eval t0 ex rest hnod hlen "formant" Prod.fst (fun frame => by simp),
   to_array_eval t0 ex rest hnod hlen "bandwidth" Prod.snd (fun frame => by simp)⟩

/-- Witness for C8: a two-frame track with keys `1` and `0`. -/
theorem C8_to_array_rows_witness :
    ((((1 : ℝ), ([(some (5 : ℝ), some (6 : ℝ))] : FormantFrame)) ::
        [((0 : ℝ), ([(some (7 : ℝ), some (8 : ℝ))] : FormantFrame))]).map Prod.fst).Nodup ∧
    (∀ p ∈ ((1 : ℝ), ([(some (5 : ℝ), some (6 : ℝ))] : FormantFrame)) ::
        [((0 : ℝ), ([(some (7 : ℝ), some (8 : ℝ))] : FormantFrame))],
      p.2.length = ([(some (5 : ℝ), some (6 : ℝ))] : FormantFrame).length) ∧
    (to_array (((1 : ℝ), ([(some (5 : ℝ), some (6 : ℝ))] : FormantFrame)) ::
        [((0 : ℝ), ([(some (7 : ℝ), some (8 : ℝ))] : FormantFrame))]) "formant"
        = .ok ((((((1 : ℝ), ([(some (5 : ℝ), some (6 : ℝ))] : FormantFrame)) ::
            [((0 : ℝ), ([(some (7 : ℝ), some (8 : ℝ))] : FormantFrame))]).mergeSort
              (fun p q => decide (p.1 ≤ q.1))).map (fun p => p.2.map Prod.fst))) ∧
      to_array (((1 : ℝ), ([(some (5 : ℝ), some (6 : ℝ))] : FormantFrame)) ::
        [((0 : ℝ), ([(some (7 : ℝ), some (8 : ℝ))] : FormantFrame))]) "bandwidth"
        = .ok ((((((1 : ℝ), ([(some (5 : ℝ), some (6 : ℝ))] : FormantFrame)) ::
            [((0 : ℝ), ([(some (7 : ℝ), some (8 : ℝ))] : FormantFrame))]).mergeSort
              (fun p q => decide (p.1 ≤ q.1))).map (fun p => p.2.map Prod.snd)))) :=
  ⟨by
    simp only [List.map_cons, List.map_nil, List.nodup_cons]
    refine ⟨?_, by simp⟩
    simp only [List.mem_singleton, List.not_mem_nil, List.mem_cons, or_false]
    norm_num,
   by
    intro p hp
    rcases List.mem_cons.mp hp with h | h
    · rw [h]
    · rw [List.mem_singleton.mp h]
      rfl,
   C8_to_array_rows 1 [(some 5, some 6)] [((0 : ℝ), [(some 7, some 8)])]
     (by
       simp only [List.map_cons, List.map_nil, List.nodup_cons]
       refine ⟨?_, by simp⟩
       simp only [List.mem_singleton, List.not_mem_nil, List.mem_cons, or_false]
       norm_num)
     (by
       intro p hp
       rcases List.mem_cons.mp hp with h | h
       · rw [h]
       · rw [List.mem_singleton.mp h]
         rfl)⟩

/-- Counterexample for C8 as stated: on the empty track the projection
raises `StopIteration` (from `next(iter(...))`) instead of returning an
empty rectangular array. -/
theorem C8_counterexample :
    to_array ([] : List (ℝ × FormantFrame)) "formant" = .error "StopIteration" := rfl

/-! ### C1: with a faithful root finder, frames have exactly num_formants entries -/

/-- If the root list is closed under complex conjugation (as `np.roots`
guarantees for the real-coefficient prediction polynomial) and has at
most `2·nf` elements (the polynomial degree), then at most `nf`
candidates survive the 50 Hz guards: real roots map to frequency exactly
0 (`Re ≥ 0`) or exactly `mf` (`Re < 0`) at working rate `2·mf` and are
always discarded, and at most half of the remaining roots have positive
imaginary part. -/
lemma surviving_count_le (mf : ℝ) (nf : ℕ) (rts : List ℂ)
    (hconj : (rts.map (starRingEnd ℂ)).Perm rts)
    (hdeg : rts.length ≤ 2 * nf) :
    ((rootCandidates (2 * mf) rts).filter
      (fun p => decide (¬ p.1 < 50) && decide (¬ mf - 50 < p.1))).length ≤ nf := by
  have hcnt : List.countP (fun z : ℂ => decide (0 < z.im)) rts ≤ nf := by
    have h1 : List.countP (fun z : ℂ => decide (0 < z.im)) (rts.map (starRingEnd ℂ))
        = List.countP (fun z : ℂ => decide (0 < z.im)) rts :=
      hconj.countP_eq _
    have h2 : List.countP (fun z : ℂ => decide (0 < z.im)) (rts.map (starRingEnd ℂ))
        = List.countP ((fun z : ℂ => decide (0 < z.im)) ∘ (starRingEnd ℂ)) rts :=
      List.countP_map _ _ _
    have h3 : List.countP ((fun z : ℂ => decide (0 < z.im)) ∘ (starRingEnd ℂ)) rts
        = List.countP (fun z : ℂ => decide (z.im < 0)) rts := by
      refine List.countP_congr (fun z _ => ?_)
      simp only [Function.comp_apply, decide_eq_true_eq, Complex.conj_im]
      constructor
      · intro h
        linarith
      · intro h
        linarith
    have hswap : List.countP (fun z : ℂ => decide (0 < z.im)) rts
        = List.countP (fun z : ℂ => decide (z.im < 0)) rts := by
      rw [← h1, h2, h3]
    have hsplit := List.length_eq_countP_add_countP (fun z : ℂ => decide (0 < z.im)) rts
    have hmono : List.countP (fun z : ℂ => decide (z.im < 0)) rts
        ≤ List.countP
            (fun a : ℂ => decide ¬(decide (0 < a.im) = true)) rts := by
      refine List.countP_mono_left (fun z _ hz => ?_)
      simp only [decide_eq_true_eq] at hz ⊢
      intro hpz
      linarith
    omega
  rw [← List.countP_eq_length_filter]
  rw [rootCandidates]
  rw [List.Perm.countP_eq _ (List.mergeSort_perm _ _)]
  rw [List.countP_map]
  refine le_trans (List.countP_mono_left ?_)
    (le_trans (List.Sublist.countP_le _ (List.filter_sublist rts)) hcnt)
  intro r hr hkeep
  have h0le : (0 : ℝ) ≤ r.im := by
    have := (List.mem_filter.mp hr).2
    simpa using this
  rcases lt_or_eq_of_le h0le with hpos | heq
  · exact decide_eq_true hpos
  · exfalso
    have him : r.im = 0 := heq.symm
    have hreal : r = ((r.re : ℝ) : ℂ) :=
      Complex.ext rfl (by rw [him, Complex.ofReal_im])
    simp only [Function.comp_apply, Bool.and_eq_true, decide_eq_true_eq] at hkeep
    obtain ⟨hk1, hk2⟩ := hkeep
    rcases le_or_lt 0 r.re with hre | hre
    · have harg : r.arg = 0 := by
        rw [hreal]
        exact Complex.arg_ofReal_of_nonneg hre
      rw [harg, zero_mul] at hk1
      exact hk1 (by norm_num)
    · have harg : r.arg = Real.pi := by
        rw [hreal]
        exact Complex.arg_ofReal_of_neg hre
      have hfeq : Real.pi * (2 * mf / (2 * Real.pi)) = mf := by
        have hpi := Real.pi_ne_zero
        field_simp
        ring
      rw [harg, hfeq] at hk2
      exact hk2 (by linarith)

/-- Claim C1 (confirmed): in every completed extraction whose root finder
behaves like `np.roots` on the real-coefficient prediction polynomial —
the returned root multiset is closed under complex conjugation, and has
at most `2·num_formants` elements (the polynomial degree) — every
recorded frame contains exactly `num_formants` entries: the at most
`num_formants` surviving candidates (real roots are always discarded by
the 50 Hz guards, and at most one root of each conjugate pair has
non-negative imaginary part and positive frequency) padded with missing
sentinels up to `num_formants`. -/
theorem C1_frames_exactly_num_formants (cfg : FormantsConfig)
    (fr : List ℝ → List ℂ) (proc : List ℝ) (rep : List (ℝ × FormantFrame))
    (hconj : ∀ A : List ℝ, ((fr A).map (starRingEnd ℂ)).Perm (fr A))
    (hdeg : ∀ A : List ℝ, (fr A).length ≤ 2 * cfg.num_formants)
    (hok : process cfg fr proc = .ok rep) :
    ∀ p ∈ rep, p.2.length = cfg.num_formants ∧
      ∃ survivors : List (ℝ × ℝ), survivors.length ≤ cfg.num_formants ∧
        p.2 = survivors.map (fun c => ((some c.1, some c.2) : Option ℝ × Option ℝ))
            ++ List.replicate (cfg.num_formants - survivors.length)
                ((none : Option ℝ), (none : Option ℝ)) := by
  intro p hp
  simp only [process] at hok
  split at hok
  · exact Except.noConfusion hok
  · obtain ⟨x, _, hfx⟩ := mapM_ok_mem _ _ _ hok p hp
    obtain ⟨A, hA⟩ := processFrame_ok_snd _ _ _ _ _ _ _ _ hfx
    have hsur := surviving_count_le cfg.max_freq cfg.num_formants (fr A)
      (hconj A) (hdeg A)
    constructor
    · rw [hA, filterPad_length]
      exact Nat.max_eq_left hsur
    · refine ⟨((rootCandidates (2 * cfg.max_freq) (fr A)).filter
        (fun p => decide (¬ p.1 < 50) && decide (¬ cfg.max_freq - 50 < p.1))),
        hsur, ?_⟩
      rw [hA, filterPad_eq]

lemma rootsA_conj : ∀ A : List ℝ, ((rootsA A).map (starRingEnd ℂ)).Perm (rootsA A) := by
  intro A
  have h1 : (rootsA A).map (starRingEnd ℂ) = [-Complex.I, Complex.I] := by
    simp [rootsA, Complex.conj_I]
  rw [h1]
  exact List.Perm.swap Complex.I (-Complex.I) []

lemma rootsA_deg : ∀ A : List ℝ, (rootsA A).length ≤ 2 * cfgA.num_formants := by
  intro A
  show ([Complex.I, -Complex.I] : List ℂ).length ≤ 2 * cfgA.num_formants
  decide

/-- Witness for C1: a concrete completed extraction (2-sample signal,
2-sample gaussian window, conjugate root pair `{i, −i}`, one requested
formant) whose single frame has exactly one entry. -/
theorem C1_frames_exactly_num_formants_witness :
    (∀ A : List ℝ, ((rootsA A).map (starRingEnd ℂ)).Perm (rootsA A)) ∧
    (∀ A : List ℝ, (rootsA A).length ≤ 2 * cfgA.num_formants) ∧
    process cfgA rootsA [(1 : ℝ), 1]
      = .ok [((1 : ℝ) / 400, [(some (100 : ℝ), some (0 : ℝ))])] ∧
    (∀ p ∈ [((1 : ℝ) / 400, ([(some (100 : ℝ), some (0 : ℝ))] : FormantFrame))],
      p.2.length = cfgA.num_formants ∧
      ∃ survivors : List (ℝ × ℝ), survivors.length ≤ cfgA.num_formants ∧
        p.2 = survivors.map (fun c => ((some c.1, some c.2) : Option ℝ × Option ℝ))
            ++ List.replicate (cfgA.num_formants - survivors.length)
                ((none : Option ℝ), (none : Option ℝ))) :=
  ⟨rootsA_conj, rootsA_deg, processA_run,
   C1_frames_exactly_num_formants cfgA rootsA [(1 : ℝ), 1] _
     rootsA_conj rootsA_deg processA_run⟩
